import Mathlib

/-!
Shallow embedding of `shefmine.py`, a commit-history vulnerability miner.

The embedding follows the source file function by function.  The modules the
source imports but which are not part of this repository's source tree
(`vulnerability.py`, `languages/language.py`, `languages/c.py`, and the
external `flawfinder` scanner) appear as parameters; concrete specimen values
for them, used by witnesses, are modelled from the specification and marked as
such in their doc comments.

Strings are modelled as Lean `String`s; where character-level scanning is
needed we work on `String.data` (`List Char`).
-/

set_option maxHeartbeats 1000000

/-- Python whitespace characters, as used by `str.strip` and the regex
class `\s`. -/
def pyWhite (c : Char) : Bool :=
  c = ' ' || c = '\t' || c = '\n' || c = '\r' || c = '\x0b' || c = '\x0c'

/-- `str.strip()` on a character list: drop whitespace from both ends. -/
def pyStripList (cs : List Char) : List Char :=
  ((cs.dropWhile pyWhite).reverse.dropWhile pyWhite).reverse

/-- `str.strip()` on a string. -/
def pyStrip (s : String) : String :=
  ⟨pyStripList s.data⟩

/-- `str.lower()`. -/
def lowerStr (s : String) : String :=
  ⟨s.data.map Char.toLower⟩

/-- A regex word character (`\w`): alphanumeric or underscore. -/
def isWordChar (c : Char) : Bool :=
  c.isAlphanum || c = '_'

/-- Whether the character at index `i` of `line` exists and is a word
character (positions past the end count as non-word: the default `' '` is
not a word character). -/
def wordAt (line : List Char) (i : Nat) : Bool :=
  isWordChar (line.getD i ' ')

/-- A regex word boundary (`\b`) sits at position `i` of `line` iff the
word-character status changes between positions `i - 1` and `i`. -/
def boundaryAt (line : List Char) (i : Nat) : Bool :=
  (if i = 0 then false else wordAt line (i - 1)) != wordAt line i

/-- The literal pattern `pat` occurs in `line` starting at index `i`. -/
def matchesAt (line pat : List Char) (i : Nat) : Bool :=
  pat.isPrefixOf (line.drop i)

/-- Embedding of `re.compile(fr'\b{rule}\b', re.S).search(line)` from
`process_diff` (src line 111) for a literal keyword `rule`: some position of
`line` starts a word-bounded occurrence of `pat`.  The rule sets of the
language profiles supply plain keyword tokens, so the interpolated regex is
the literal keyword between two word boundaries (`re.S` only alters `.`,
which does not occur). -/
def wbSearch (pat line : List Char) : Bool :=
  (List.range (line.length + 1)).any fun i =>
    boundaryAt line i && matchesAt line pat i && boundaryAt line (i + pat.length)

/-- `pat` occurs anywhere in `s` as a contiguous sublist. -/
def hasSub (pat : List Char) : List Char → Bool
  | [] => pat.isEmpty
  | c :: cs => pat.isPrefixOf (c :: cs) || hasSub pat cs

/-- Case-insensitively consume the literal pattern `pat` (given in lower
case) from the front of `cs`; return the remainder on success. -/
def dropPrefixCI : List Char → List Char → Option (List Char)
  | [], cs => some cs
  | _ :: _, [] => none
  | p :: ps, c :: cs => if c.toLower = p then dropPrefixCI ps cs else none

/-- Greedy `.*` (no DOTALL): skip to the end of the current line. -/
def lineRest (cs : List Char) : List Char :=
  cs.dropWhile (fun c => c ≠ '\n')

/-- The character class `[\s\-_]` of the trailer regex. -/
def sepClass (c : Char) : Bool :=
  pyWhite c || c = '-' || c = '_'

/-- The alternative `signed([\s\-_]off)?` of the trailer regex: consume
`signed`, then greedily an optional separator-plus-`off`. -/
def signedTail (cs : List Char) : Option (List Char) :=
  match dropPrefixCI "signed".data cs with
  | none => none
  | some r =>
    match r with
    | c :: r2 =>
      if sepClass c then
        match dropPrefixCI "off".data r2 with
        | some r3 => some r3
        | none => some r
      else some r
    | [] => some r

/-- The keyword alternation
`acked|cc|reported|reviewed|signed([\s\-_]off)?|submitted|tested` of the
trailer regex, tried in regex order.  No keyword is a prefix of another, so
committed choice coincides with backtracking alternation. -/
def keywordTail (cs : List Char) : Option (List Char) :=
  match dropPrefixCI "acked".data cs with
  | some r => some r
  | none =>
  match dropPrefixCI "cc".data cs with
  | some r => some r
  | none =>
  match dropPrefixCI "reported".data cs with
  | some r => some r
  | none =>
  match dropPrefixCI "reviewed".data cs with
  | some r => some r
  | none =>
  match signedTail cs with
  | some r => some r
  | none =>
  match dropPrefixCI "submitted".data cs with
  | some r => some r
  | none => dropPrefixCI "tested".data cs

/-- One attempted match, at the head of `cs`, of the trailer regex of
`process_commit_message` (src line 82):
`git-svn-id.*|(acked|cc|reported|reviewed|signed([\s\-_]off)?|submitted|tested)[\s\-_]*(by|on)?:.*`
with `re.I`.  Returns the remainder after the matched text.  The pieces
following the keyword are character-disjoint, so greedy matching with the
single fall-through on `(by|on)?` is equivalent to full backtracking. -/
def trailerMatch (cs : List Char) : Option (List Char) :=
  match dropPrefixCI "git-svn-id".data cs with
  | some r => some (lineRest r)
  | none =>
    match keywordTail cs with
    | none => none
    | some r1 =>
      let r2 := r1.dropWhile sepClass
      let r3 := match dropPrefixCI "by".data r2 with
                | some rb => rb
                | none =>
                  match dropPrefixCI "on".data r2 with
                  | some ro => ro
                  | none => r2
      match r3 with
      | ':' :: r4 => some (lineRest r4)
      | _ => none

/-- `re.sub(pattern, '', message)`: scan left to right, removing each
non-overlapping match (every match is non-empty, so the scan advances).
The fuel argument starts at the length of the list, which each step
strictly decreases by at least one consumed character. -/
def subAux : Nat → List Char → List Char
  | 0, cs => cs
  | _ + 1, [] => []
  | fuel + 1, c :: cs =>
    match trailerMatch (c :: cs) with
    | some rest => subAux fuel rest
    | none => c :: subAux fuel cs

/-- Embedding of `process_commit_message` (src lines 73-83): delete
source-control migration identifiers and attribution trailers from the
message, then strip surrounding whitespace. -/
def process_commit_message (m : String) : String :=
  pyStrip ⟨subAux m.data.length m.data⟩

/-- `pydriller.ModificationType`. -/
inductive ChangeType where
  | ADD | COPY | RENAME | DELETE | MODIFY | UNKNOWN
deriving DecidableEq, Repr

/-- One `(line number, line text)` pair of a parsed diff side. -/
structure DiffLine where
  num : Nat
  text : String
deriving DecidableEq, Repr

/-- The dictionary returned by `repo.parse_diff`: added and deleted lines. -/
structure Diff where
  added : List DiffLine
  deleted : List DiffLine
deriving DecidableEq, Repr

/-- A `pydriller` file modification, as consumed by `search_repository`.
In the source, `modification.change_type.name is 'DELETE'` compares interned
identifier strings and behaves as equality on the enum. -/
structure Modification where
  old_path : String
  new_path : String
  change_type : ChangeType
  diff : Diff
deriving DecidableEq, Repr

/-- A commit as exposed by the history accessor. -/
structure Commit where
  hash : String
  msg : String
  modifications : List Modification
deriving DecidableEq, Repr

/-- One entry of `vuln.vulnerability_list` (`vulnerability.py` is not in the
source tree): a category name and the compiled regex, modelled by its
`search` function returning `match.group()` on success. -/
structure VulnRule where
  name : String
  search : String → Option String

/-- One entry of `lang.language_list` (`languages/language.py` is not in the
source tree): extensions, full-line comment predicate, and the rule set
mapping category names to keyword lists, in iteration order. -/
structure LanguageProfile where
  extensions : List String
  is_not_comment : String → Bool
  rule_set : List (String × List String)

/-- The value stored under the `'vulnerability'` key of a finding.  In the
JSON output this is either a list of rule names (`process_diff`, src line
121) or a single rule-name string (`run_flawfinder`, src line 170). -/
inductive VulnValue where
  | ofList : List String → VulnValue
  | ofStr : String → VulnValue
deriving DecidableEq, Repr

/-- Discriminator: does the vulnerability value carry a list of names? -/
def VulnValue.isList : VulnValue → Bool
  | .ofList _ => true
  | .ofStr _ => false

/-- One finding dictionary appended to a side of a partial output. -/
structure Finding where
  line_num : Nat
  line : String
  vulnerability : VulnValue
deriving DecidableEq, Repr

/-- The `partial_output` dictionary of both matchers.  A side key is present
in the Python dictionary iff its list here is non-empty (keys are only ever
created immediately before an append). -/
structure PartialOutput where
  added : List Finding
  deleted : List Finding
deriving DecidableEq, Repr

/-- One element of a commit's `files_changed` list. -/
structure FileEntry where
  file : String
  report : PartialOutput
deriving DecidableEq, Repr

/-- One value of the output dictionary of `search_repository`.  The
`files_changed` key is present in the Python dictionary iff the list here is
non-empty. -/
structure CommitEntry where
  message : String
  vulnerabilities : List (String × String)
  files_changed : List FileEntry
deriving DecidableEq, Repr

/-- The output dictionary, keyed by commit hash in insertion order. -/
abbrev Output := List (String × CommitEntry)

/-- A hit reported by the external C/C++ scanner: rule name, severity
level, and the exact matched line text (`flawfinder`'s `context_text`). -/
structure Hit where
  name : String
  level : Nat
  context_text : String
deriving DecidableEq, Repr

/-- The inline line filter of `process_diff` (src lines 101-102): keep the
pairs whose text is non-empty (Python truthiness of the string) and not a
full-line comment, and strip the surviving texts. -/
def genericFilterSide (inc : String → Bool) (v : List DiffLine) : List (Nat × String) :=
  (v.filter fun dl => dl.text ≠ "" && inc dl.text).map fun dl => (dl.num, pyStrip dl.text)

/-- The inner rule scan of `process_diff` (src lines 107-112): collect, in
rule-set order, every rule whose word-bounded regex finds a match in the
line. -/
def matchLine (ruleSet : List (String × List String)) (line : String) : List String :=
  ruleSet.foldl (fun acc p => acc ++ p.2.filter fun r => wbSearch r.data line.data) []

/-- The per-side loop of `process_diff` (src lines 105-122): one finding per
line with a non-empty rule match, in line order. -/
def processSide (rs : List (String × List String)) : List (Nat × String) → List Finding
  | [] => []
  | p :: ps =>
    let v := matchLine rs p.2
    if v.isEmpty then processSide rs ps
    else ⟨p.1, pyStrip p.2, .ofList v⟩ :: processSide rs ps

/-- The language loop of `process_diff` (src lines 98-122).  The filtered
diff is bound by generator comprehensions that the inner loop exhausts, so
after a matching language has been processed the threaded diff is empty. -/
def processDiffAux : List LanguageProfile → String → Diff → PartialOutput → PartialOutput
  | [], _, _, po => po
  | l :: ls, ext, d, po =>
    if lowerStr ext ∈ l.extensions then
      let fa := genericFilterSide l.is_not_comment d.added
      let fd := genericFilterSide l.is_not_comment d.deleted
      processDiffAux ls ext ⟨[], []⟩
        ⟨po.added ++ processSide l.rule_set fa, po.deleted ++ processSide l.rule_set fd⟩
    else processDiffAux ls ext d po

/-- Embedding of `process_diff` (src lines 86-123). -/
def process_diff (langs : List LanguageProfile) (d : Diff) (ext : String) : PartialOutput :=
  processDiffAux langs ext d ⟨[], []⟩

/-- The `linelist` of `run_flawfinder` (src lines 146-147): drop empty lines
and full-line comments (the comment regex is applied to the stripped line),
and remove inline comments from the stripped survivors. -/
def cFilterList (cC : String → Bool) (rC : String → String) (v : List DiffLine) :
    List (Nat × String) :=
  (v.filter fun dl => dl.text ≠ "" && !cC (pyStrip dl.text)).map
    fun dl => (dl.num, rC (pyStrip dl.text))

/-- The hit loop of `run_flawfinder` (src lines 161-171).  Each surviving
hit is reconciled to the first `linelist` entry with equal text, and the
reported line text is the stripped raw line with that number.  A failed
lookup is the `StopIteration` crash of the generator `.__next__()` calls,
modelled as `none`. -/
def reconcileHits (linelist : List (Nat × String)) (value : List DiffLine) :
    List Hit → Option (List Finding)
  | [] => some []
  | h :: hs =>
    match linelist.find? (fun p => p.2 == h.context_text) with
    | none => none
    | some p =>
      match value.find? (fun dl => p.1 == dl.num) with
      | none => none
      | some dl =>
        (reconcileHits linelist value hs).map
          (fun fs => ⟨p.1, pyStrip dl.text, .ofStr h.name⟩ :: fs)

/-- One side of `run_flawfinder` (src lines 140-171): write the filtered
lines to a fresh buffer, run the scanner on it (the global hitlist is reset
first, so the scanner sees exactly this buffer), drop level-0 and
comment-text hits, and reconcile the rest. -/
def flawfinderSide (scanner : List String → List Hit) (cC : String → Bool)
    (rC : String → String) (value : List DiffLine) : Option (List Finding) :=
  let linelist := cFilterList cC rC value
  let hits := scanner (linelist.map Prod.snd)
  reconcileHits linelist value
    (hits.filter fun h => decide (0 < h.level) && !cC h.context_text)

/-- Embedding of `run_flawfinder` (src lines 126-173).  The commit hash and
filename parameters of the source only name the temporary file and do not
affect the result, so they are omitted. -/
def run_flawfinder (scanner : List String → List Hit) (cC : String → Bool)
    (rC : String → String) (d : Diff) : Option PartialOutput :=
  match flawfinderSide scanner cC rC d.added with
  | none => none
  | some a =>
    match flawfinderSide scanner cC rC d.deleted with
    | none => none
    | some del => some ⟨a, del⟩

/-- Dictionary lookup `output[hash]` / `hash in output`.  Keys are unique by
construction (entries are only inserted under a `not in output` guard). -/
def lookupEntry (out : Output) (h : String) : Option CommitEntry :=
  (out.find? fun p => p.1 == h).map Prod.snd

/-- `output[hash]['files_changed'].append(...)`, creating the key first if
needed (src lines 61-64).  Keys are unique, so mapping over all entries with
this key is the dictionary update. -/
def updateEntry (out : Output) (h : String) (fe : FileEntry) : Output :=
  out.map fun p =>
    if p.1 == h then (p.1, { p.2 with files_changed := p.2.files_changed ++ [fe] }) else p

/-- The classification loop of `search_repository` (src lines 31-44): for
each catalog rule in order, if the rule matches the normalized message and
the hash is not yet a key, insert a fresh entry carrying the raw message and
that single match. -/
def classifyAux (c : Commit) : List VulnRule → Output → Output
  | [], out => out
  | v :: vs, out =>
    let msg := process_commit_message c.msg
    let out1 :=
      match v.search msg with
      | some g =>
        if (lookupEntry out c.hash).isSome then out
        else out ++ [(c.hash, ⟨c.msg, [(v.name, g)], []⟩)]
      | none => out
    classifyAux c vs out1

/-- The first catalog rule matching `m`, with its matched text. -/
def firstMatch : List VulnRule → String → Option (String × String)
  | [], _ => none
  | v :: vs, m =>
    match v.search m with
    | some g => some (v.name, g)
    | none => firstMatch vs m

/-- `os.path.splitext(p)[1]`: the extension starts at the last dot of the
basename, ignoring the basename's leading dots. -/
def splitextExt (p : String) : String :=
  let base := (p.data.reverse.takeWhile fun c => c ≠ '/').reverse
  let lead := (base.takeWhile fun c => c = '.').length
  let revT := (base.drop lead).reverse
  if revT.contains '.' then ⟨'.' :: (revT.takeWhile fun c => c ≠ '.').reverse⟩ else ""

/-- The external collaborators of `search_repository`, bundled: the
vulnerability catalog, the language profile registry, the C/C++ scanner, the
C comment regex and inline-comment remover of `languages/c.py`, and the
C/C++ extension set. -/
structure Params where
  vulnList : List VulnRule
  languages : List LanguageProfile
  scanner : List String → List Hit
  cComments : String → Bool
  removeComment : String → String
  cExtensions : List String

/-- The modification loop of `search_repository` (src lines 49-64): dispatch
each changed file by extension, and append a file entry when the partial
output is non-empty.  A scanner reconciliation crash aborts the run. -/
def modFold (P : Params) (h : String) : Output → List Modification → Option Output
  | out, [] => some out
  | out, m :: ms =>
    let file := if m.change_type = ChangeType.DELETE then m.old_path else m.new_path
    let ext := splitextExt file
    match (if lowerStr ext ∈ P.cExtensions then
             run_flawfinder P.scanner P.cComments P.removeComment m.diff
           else some (process_diff P.languages m.diff ext)) with
    | none => none
    | some po =>
      modFold P h
        (if po.added.isEmpty && po.deleted.isEmpty then out else updateEntry out h ⟨file, po⟩)
        ms

/-- The commit loop of `search_repository` (src lines 30-68).  The removal
of commits without changed files (src lines 66-68) is commented out in the
source and therefore absent here. -/
def searchCommits (P : Params) : Output → List Commit → Option Output
  | out, [] => some out
  | out, c :: cs =>
    let out1 := classifyAux c P.vulnList out
    match (if (lookupEntry out1 c.hash).isSome then modFold P c.hash out1 c.modifications
           else some out1) with
    | none => none
    | some out2 => searchCommits P out2 cs

/-- Embedding of `search_repository` (src lines 20-70). -/
def search_repository (P : Params) (commits : List Commit) : Option Output :=
  searchCommits P [] commits

/-- The exceptions caught by the driver (src lines 233-236). -/
inductive GitError where
  | noSuchPath
  | commandError
deriving DecidableEq, Repr

/-- The command-line arguments that appear in the error messages. -/
structure MainArgs where
  repoArg : String
  branchArg : String
deriving DecidableEq, Repr

/-- A single-quote character, kept out of string literals. -/
def quoteStr : String :=
  String.singleton (Char.ofNat 39)

/-- The messages printed by the `except` clauses (src lines 234 and 236). -/
def errorMessage (a : MainArgs) : GitError → String
  | .noSuchPath => "shefmine.py: " ++ quoteStr ++ a.repoArg ++ quoteStr ++ " is not a Git repository"
  | .commandError => "shefmine.py: GitCommandError, bad revision " ++ quoteStr ++ a.branchArg ++ quoteStr

/-- Observable outcome of the driver: the output written (if any) and the
user-facing messages printed. -/
structure MainResult where
  written : Option Output
  printed : List String

/-- The `__main__` block (src lines 206-236): repository acquisition and
traversal may raise, in which case the matching `except` clause prints its
message and no output file is opened (`output_result` runs only after
`search_repository` returns).  A reconciliation crash (`StopIteration`) is
uncaught and also writes nothing. -/
def mainModel (a : MainArgs) (P : Params) (repoResult : Except GitError (List Commit)) :
    MainResult :=
  match repoResult with
  | .error e => ⟨none, [errorMessage a e]⟩
  | .ok commits =>
    match search_repository P commits with
    | some out => ⟨some out, ["Issues found", "Output location", "Time taken"]⟩
    | none => ⟨none, []⟩

/-- Modelled from the spec: `languages/c.py` is not in the source tree; its
`c_comments` regex recognises full-line comments — optionally indented text
beginning a `//` or `/*` comment (§4.3, §4.5). -/
def cCommentsSpec (s : String) : Bool :=
  "//".data.isPrefixOf (pyStrip s).data || "/*".data.isPrefixOf (pyStrip s).data

/-- Cut a character list at the first occurrence of `//`. -/
def cutAtSlashes : List Char → List Char
  | [] => []
  | c :: cs => if "//".data.isPrefixOf (c :: cs) then [] else c :: cutAtSlashes cs

/-- Modelled from the spec: `languages/c.py` is not in the source tree; its
`remove_comment` normalises inline trailing `//` comments off a line
(§4.5 step 1). -/
def removeCommentSpec (s : String) : String :=
  ⟨cutAtSlashes s.data⟩

/-- Modelled from the spec: the C/C++ extension set of `languages/c.py`
(§2, §4.4). -/
def cExtensionsSpec : List String :=
  [".c", ".h", ".cpp", ".hpp", ".cc", ".cxx"]

/-- Modelled from the spec: a specimen language profile of the missing
`languages/language.py` registry — a hash-comment scripting language with a
keyword rule set (§2 item 2, §4.4). -/
def sampleProfile : LanguageProfile where
  extensions := [".py"]
  is_not_comment := fun l => !"#".data.isPrefixOf (pyStrip l).data
  rule_set := [("crypto", ["md5", "sha1"])]

/-- Modelled from the spec: a specimen catalog rule of the missing
`vulnerability.py` module — a compiled regex matching a literal keyword
anywhere in the text, whose `match.group()` is that keyword (§4.1). -/
def kwRule (name kw : String) : VulnRule where
  name := name
  search := fun m => if hasSub kw.data m.data then some kw else none

/-- Modelled from the spec: a specimen scanner behaving as the external
C/C++ pattern scanner — it reports a `strcpy` hit of severity 4 when the
buffer contains the call (§1, §4.5). -/
def strcpyScanner (lines : List String) : List Hit :=
  if lines.contains "strcpy(a, b);" then [⟨"strcpy", 4, "strcpy(a, b);"⟩] else []

/-- Specimen parameter bundle used by witnesses, built from the
spec-modelled collaborators. -/
def sampleParams : Params where
  vulnList := [kwRule "Overflow" "overflow", kwRule "Injection" "injection"]
  languages := [sampleProfile]
  scanner := strcpyScanner
  cComments := cCommentsSpec
  removeComment := removeCommentSpec
  cExtensions := cExtensionsSpec

/-! ### Helper lemmas -/

/-- `wordAt` through a known indexed character. -/
theorem wordAt_eq_of_getElem? {ln : List Char} {i : Nat} {c : Char}
    (h : ln[i]? = some c) : wordAt ln i = isWordChar c := by
  rw [wordAt, List.getD_eq_getElem?_getD, h]
  rfl

/-- `wordAt` past the end of the line is false. -/
theorem wordAt_eq_false_of_none {ln : List Char} {i : Nat}
    (h : ln[i]? = none) : wordAt ln i = false := by
  rw [wordAt, List.getD_eq_getElem?_getD, h]
  decide

/-- In a list of diff lines with pairwise-distinct line numbers, the line
number determines the element. -/
theorem diffNum_inj {v : List DiffLine} (hnd : (v.map DiffLine.num).Nodup)
    {a b : DiffLine} (ha : a ∈ v) (hb : b ∈ v) (hab : a.num = b.num) : a = b := by
  by_contra hne
  have hp : v.Pairwise fun x y => x.num ≠ y.num := List.pairwise_map.mp hnd
  have hsymm : Symmetric fun x y : DiffLine => x.num ≠ y.num := fun x y h e => h e.symm
  exact hp.forall hsymm ha hb hne hab

/-- `find?` returns the head of the first satisfying suffix. -/
theorem find?_first_of_split {α : Type} (p : α → Bool) (pre : List α) (a : α) (suf : List α)
    (hpre : ∀ x ∈ pre, p x = false) (ha : p a = true) :
    (pre ++ a :: suf).find? p = some a := by
  induction pre with
  | nil => simpa using List.find?_cons_of_pos _ ha
  | cons x xs ih =>
    have hx : p x = false := hpre x (by simp)
    rw [List.cons_append, List.find?_cons_of_neg _ (by simp [hx])]
    exact ih fun y hy => hpre y (by simp [hy])

/-- `find?` on a list with a unique satisfying element returns it. -/
theorem find?_of_unique {α : Type} (p : α → Bool) (l : List α) (a : α)
    (ha : a ∈ l) (hpa : p a = true) (huniq : ∀ b ∈ l, p b = true → b = a) :
    l.find? p = some a := by
  induction l with
  | nil => cases ha
  | cons x xs ih =>
    by_cases hx : p x = true
    · have hxa : x = a := huniq x (by simp) hx
      subst hxa
      rw [List.find?_cons_of_pos _ hx]
    · rw [List.find?_cons_of_neg _ hx]
      rcases List.mem_cons.mp ha with h | h
      · subst h
        exact absurd hpa hx
      · exact ih h fun b hb hpb => huniq b (List.mem_cons_of_mem _ hb) hpb

/-! ### Claims -/

/-- C7.  The commit message normalizer removes the attribution trailer
entirely: on the specified input the output equals `"Fixes overflow bug."`
and contains no fragment of the `Signed-off-by` line. -/
theorem process_commit_message_strips_trailer :
    process_commit_message "Fixes overflow bug.\nSigned-off-by: A <a@x.com>" =
        "Fixes overflow bug." ∧
    hasSub "Signed".data
        (process_commit_message "Fixes overflow bug.\nSigned-off-by: A <a@x.com>").data = false ∧
    hasSub "a@x.com".data
        (process_commit_message "Fixes overflow bug.\nSigned-off-by: A <a@x.com>").data = false := by
  decide

/-- C8.  On either fatal git error the driver prints exactly the
corresponding user-facing message and writes no output. -/
theorem main_error_no_output (a : MainArgs) (P : Params) (e : GitError) :
    (mainModel a P (Except.error e)).written = none ∧
    (mainModel a P (Except.error e)).printed = [errorMessage a e] :=
  ⟨rfl, rfl⟩

/-- C1.  Divergence of the source from the claim: both catalog rules match
the normalized message, yet the output entry records only the first match —
the insertion and the append are both guarded by `commit.hash not in
output`, so no later match is ever appended. -/
theorem search_repository_first_match_only :
    (kwRule "Overflow" "overflow").search
        (process_commit_message "fix overflow and injection bug") = some "overflow" ∧
    (kwRule "Injection" "injection").search
        (process_commit_message "fix overflow and injection bug") = some "injection" ∧
    search_repository sampleParams [⟨"h1", "fix overflow and injection bug", []⟩] =
      some [("h1", ⟨"fix overflow and injection bug", [("Overflow", "overflow")], []⟩)] := by
  decide

/-- C5.  The word-bounded rule search of the generic matcher succeeds on a
line exactly when the keyword occurs as a whole word-bounded token: the line
splits as `pre ++ keyword ++ post` with no word character adjacent to the
keyword on either side. -/
theorem word_boundary_search_iff (pat ln : List Char) (hne : pat ≠ [])
    (hw : ∀ c ∈ pat, isWordChar c = true) :
    wbSearch pat ln = true ↔
      ∃ pre post, ln = pre ++ pat ++ post ∧
        (∀ c, pre.getLast? = some c → isWordChar c = false) ∧
        (∀ c, post.head? = some c → isWordChar c = false) := by
  have hL : 0 < pat.length := List.length_pos.mpr hne
  obtain ⟨c0, hc0⟩ : ∃ c0, pat[0]? = some c0 := ⟨_, List.getElem?_eq_getElem hL⟩
  have hc0w : isWordChar c0 = true := by
    have : pat[0] ∈ pat := List.getElem_mem hL
    have he : pat[0] = c0 := by
      have := List.getElem?_eq_getElem hL
      rw [hc0] at this
      exact (Option.some_injective _ this.symm)
    exact he ▸ hw _ this
  obtain ⟨cl, hcl⟩ : ∃ cl, pat[pat.length - 1]? = some cl :=
    ⟨_, List.getElem?_eq_getElem (by omega)⟩
  have hclw : isWordChar cl = true := by
    have hlt : pat.length - 1 < pat.length := by omega
    have : pat[pat.length - 1] ∈ pat := List.getElem_mem hlt
    have he : pat[pat.length - 1] = cl := by
      have := List.getElem?_eq_getElem hlt
      rw [hcl] at this
      exact (Option.some_injective _ this.symm)
    exact he ▸ hw _ this
  rw [wbSearch, List.any_eq_true]
  constructor
  · rintro ⟨i, hi, hcond⟩
    rw [List.mem_range] at hi
    rw [Bool.and_eq_true, Bool.and_eq_true] at hcond
    obtain ⟨⟨hb1, hm⟩, hb2⟩ := hcond
    rw [matchesAt, List.isPrefixOf_iff_prefix] at hm
    obtain ⟨t, ht⟩ := hm
    have hlen : pat.length + t.length = ln.length - i := by
      have := congrArg List.length ht
      simpa [List.length_drop] using this
    have hiL : i + pat.length ≤ ln.length := by omega
    have hget : ∀ k, k < pat.length → ln[i + k]? = pat[k]? := by
      intro k hk
      rw [← List.getElem?_drop, ← ht, List.getElem?_append_left hk]
    refine ⟨ln.take i, t, ?_, ?_, ?_⟩
    · conv_lhs => rw [← List.take_append_drop i ln, ← ht]
      rw [List.append_assoc]
    · -- no word char at the end of the prefix
      intro c hc
      rw [boundaryAt] at hb1
      have hwi : wordAt ln i = true := by
        have h0 : ln[i]? = some c0 := by
          have := hget 0 hL
          simpa [hc0] using this
        rw [wordAt_eq_of_getElem? h0]
        exact hc0w
      rw [hwi] at hb1
      by_cases hi0 : i = 0
      · subst hi0
        simp at hc
      · rw [if_neg hi0] at hb1
        have hpre0 : wordAt ln (i - 1) = false := by
          cases h : wordAt ln (i - 1)
          · rfl
          · rw [h] at hb1
            simp at hb1
        have htake : (ln.take i).getLast? = ln[i - 1]? := by
          rw [List.getLast?_eq_getElem?, List.length_take]
          have hmin : min i ln.length = i := by omega
          rw [hmin, List.getElem?_take, if_pos (by omega)]
        rw [htake] at hc
        exact (wordAt_eq_of_getElem? hc).symm.trans hpre0
    · -- no word char at the head of the suffix
      intro c hc
      rw [boundaryAt, if_neg (by omega)] at hb2
      have hwl : wordAt ln (i + pat.length - 1) = true := by
        have he : i + pat.length - 1 = i + (pat.length - 1) := by omega
        have h1 : ln[i + (pat.length - 1)]? = some cl := by
          have := hget (pat.length - 1) (by omega)
          rw [hcl] at this
          exact this
        rw [he, wordAt_eq_of_getElem? h1]
        exact hclw
      rw [hwl] at hb2
      have hpost0 : wordAt ln (i + pat.length) = false := by
        cases h : wordAt ln (i + pat.length)
        · rfl
        · rw [h] at hb2
          simp at hb2
      have hh : ln[i + pat.length]? = t.head? := by
        rw [← List.getElem?_drop, ← ht, List.getElem?_append_right (le_refl _),
          Nat.sub_self, ← List.head?_eq_getElem?]
      exact (wordAt_eq_of_getElem? (hh.trans hc)).symm.trans hpost0
  · rintro ⟨pre, post, rfl, hpre, hpost⟩
    refine ⟨pre.length, ?_, ?_⟩
    · rw [List.mem_range]
      simp [List.length_append]
      omega
    · have hdrop : (pre ++ pat ++ post).drop pre.length = pat ++ post := by
        rw [List.append_assoc, List.drop_left]
      have hget : ∀ k, k < pat.length → (pre ++ pat ++ post)[pre.length + k]? = pat[k]? := by
        intro k hk
        rw [← List.getElem?_drop, hdrop, List.getElem?_append_left hk]
      rw [Bool.and_eq_true, Bool.and_eq_true]
      refine ⟨⟨?_, ?_⟩, ?_⟩
      · -- boundary at the start
        rw [boundaryAt]
        have hwid : wordAt (pre ++ pat ++ post) pre.length = true := by
          have h0 : (pre ++ pat ++ post)[pre.length]? = some c0 := by
            have := hget 0 hL
            simpa [hc0] using this
          rw [wordAt_eq_of_getElem? h0]
          exact hc0w
        rw [hwid]
        by_cases h0 : pre.length = 0
        · rw [if_pos h0]
          rfl
        · rw [if_neg h0]
          have hprelast : (pre ++ pat ++ post)[pre.length - 1]? = pre.getLast? := by
            rw [List.append_assoc, List.getElem?_append_left (by omega),
              List.getLast?_eq_getElem?]
          obtain ⟨c, hc⟩ : ∃ c, pre.getLast? = some c := by
            refine Option.isSome_iff_exists.mp (List.getLast?_isSome.mpr ?_)
            intro hpe
            exact h0 (by rw [hpe]; rfl)
          rw [wordAt_eq_of_getElem? (hprelast.trans hc), hpre c hc]
          rfl
      · -- the pattern occurs at the split point
        rw [matchesAt, hdrop, List.isPrefixOf_iff_prefix]
        exact ⟨post, rfl⟩
      · -- boundary at the end
        rw [boundaryAt, if_neg (by omega)]
        have hlast : wordAt (pre ++ pat ++ post) (pre.length + pat.length - 1) = true := by
          have he : pre.length + pat.length - 1 = pre.length + (pat.length - 1) := by omega
          have h1 : (pre ++ pat ++ post)[pre.length + (pat.length - 1)]? = some cl := by
            have := hget (pat.length - 1) (by omega)
            rw [hcl] at this
            exact this
          rw [he, wordAt_eq_of_getElem? h1]
          exact hclw
        rw [hlast]
        have hhead : (pre ++ pat ++ post)[pre.length + pat.length]? = post.head? := by
          rw [← List.getElem?_drop, hdrop, List.getElem?_append_right (le_refl _),
            Nat.sub_self, ← List.head?_eq_getElem?]
        cases hh : post.head? with
        | none =>
          rw [wordAt_eq_false_of_none (hhead.trans hh)]
          rfl
        | some c =>
          rw [wordAt_eq_of_getElem? (hhead.trans hh), hpost c hh]
          rfl

/-- Witness for C5: `md5` matches the line `md5 hash` as a separate token
(via the theorem, at pre `""` and post `" hash"`), and does not match inside
the identifier `md5sum_helper`. -/
theorem word_boundary_search_iff_witness :
    wbSearch "md5".data "md5 hash".data = true ∧
    wbSearch "md5".data "md5sum_helper".data = false := by
  constructor
  · refine (word_boundary_search_iff "md5".data "md5 hash".data (by decide) (by decide)).mpr
      ⟨[], " hash".data, rfl, ?_, ?_⟩
    · intro c hc
      simp at hc
    · intro c hc
      cases hc
      decide
  · decide

/-- If a pair built from a diff line's number is produced by a
filter-and-map over lines with pairwise-distinct numbers, that very line
passed the filter. -/
theorem mem_filterMap_num {q : DiffLine → Bool} {g : DiffLine → String} {v : List DiffLine}
    (hnd : (v.map DiffLine.num).Nodup) {dl : DiffLine} (hdl : dl ∈ v) {s : String}
    (hmem : (dl.num, s) ∈ (v.filter q).map fun d => (d.num, g d)) : q dl = true := by
  obtain ⟨dl', hdl', heq⟩ := List.mem_map.mp hmem
  obtain ⟨hv, hq⟩ := List.mem_filter.mp hdl'
  injection heq with h1 h2
  have he : dl' = dl := diffNum_inj hnd hv hdl h1
  exact he ▸ hq

/-- C6 counterexample: a line consisting only of whitespace has empty
trimmed text, yet both diff line filters keep it — the source drops only
lines that are the empty string (`if line`), not lines whose stripped text
is empty. -/
theorem whitespace_line_survives_filter :
    pyStrip "   " = "" ∧
    genericFilterSide sampleProfile.is_not_comment [⟨3, "   "⟩] = [(3, "")] ∧
    cFilterList cCommentsSpec removeCommentSpec [⟨3, "   "⟩] = [(3, "")] := by
  decide

/-- C6 (amended).  For both filters (generic and C/C++), on a diff side
with pairwise-distinct line numbers: lines that are the empty string are
removed, full-line comments are removed, every other line survives with its
original line number, and the surviving numbers form a subsequence of the
original numbers (order preserved).  Whitespace-only lines are not removed
by the blank-line check. -/
theorem diff_filter_spec (inc cC : String → Bool) (rC : String → String)
    (v : List DiffLine) (hnd : (v.map DiffLine.num).Nodup) :
    (∀ dl ∈ v, dl.text = "" → ∀ s, (dl.num, s) ∉ genericFilterSide inc v) ∧
    (∀ dl ∈ v, inc dl.text = false → ∀ s, (dl.num, s) ∉ genericFilterSide inc v) ∧
    (∀ dl ∈ v, dl.text ≠ "" → inc dl.text = true →
      (dl.num, pyStrip dl.text) ∈ genericFilterSide inc v) ∧
    ((genericFilterSide inc v).map Prod.fst).Sublist (v.map DiffLine.num) ∧
    (∀ dl ∈ v, dl.text = "" → ∀ s, (dl.num, s) ∉ cFilterList cC rC v) ∧
    (∀ dl ∈ v, cC (pyStrip dl.text) = true → ∀ s, (dl.num, s) ∉ cFilterList cC rC v) ∧
    (∀ dl ∈ v, dl.text ≠ "" → cC (pyStrip dl.text) = false →
      (dl.num, rC (pyStrip dl.text)) ∈ cFilterList cC rC v) ∧
    ((cFilterList cC rC v).map Prod.fst).Sublist (v.map DiffLine.num) := by
  refine ⟨?_, ?_, ?_, ?_, ?_, ?_, ?_, ?_⟩
  · intro dl hdl ht s hmem
    have hq := mem_filterMap_num hnd hdl hmem
    simp [ht] at hq
  · intro dl hdl hinc s hmem
    have hq := mem_filterMap_num hnd hdl hmem
    simp [hinc] at hq
  · intro dl hdl ht hinc
    exact List.mem_map.mpr ⟨dl, List.mem_filter.mpr ⟨hdl, by
      rw [Bool.and_eq_true, decide_eq_true_eq]
      exact ⟨ht, hinc⟩⟩, rfl⟩
  · have h : (genericFilterSide inc v).map Prod.fst =
        (v.filter fun d => d.text ≠ "" && inc d.text).map DiffLine.num := by
      rw [genericFilterSide, List.map_map]
      rfl
    rw [h]
    exact (List.filter_sublist v).map DiffLine.num
  · intro dl hdl ht s hmem
    have hq := mem_filterMap_num hnd hdl hmem
    simp [ht] at hq
  · intro dl hdl hcc s hmem
    have hq := mem_filterMap_num hnd hdl hmem
    simp [hcc] at hq
  · intro dl hdl ht hcc
    exact List.mem_map.mpr ⟨dl, List.mem_filter.mpr ⟨hdl, by
      rw [Bool.and_eq_true, decide_eq_true_eq, hcc]
      exact ⟨ht, rfl⟩⟩, rfl⟩
  · have h : (cFilterList cC rC v).map Prod.fst =
        (v.filter fun d => d.text ≠ "" && !cC (pyStrip d.text)).map DiffLine.num := by
      rw [cFilterList, List.map_map]
      rfl
    rw [h]
    exact (List.filter_sublist v).map DiffLine.num

/-- Witness for C6 (amended): a surviving line keeps its line number; here
`(3, pyStrip " md5 hash ")` is in the generic filter's output. -/
theorem diff_filter_spec_witness :
    (3, pyStrip " md5 hash ") ∈
      genericFilterSide sampleProfile.is_not_comment [⟨3, " md5 hash "⟩] :=
  (diff_filter_spec sampleProfile.is_not_comment cCommentsSpec removeCommentSpec
    [⟨3, " md5 hash "⟩] (by decide)).2.2.1 ⟨3, " md5 hash "⟩ (by decide) (by decide) (by decide)

/-- Full behaviour of the reconciliation loop when every hit's matched text
can be looked up: it succeeds, every hit contributes its finding, and every
finding comes from some hit. -/
theorem reconcileHits_spec (linelist : List (Nat × String)) (value : List DiffLine)
    (hs : List Hit)
    (hall : ∀ h ∈ hs, ∃ p, linelist.find? (fun q => q.2 == h.context_text) = some p ∧
      ∃ dl, value.find? (fun d => p.1 == d.num) = some dl) :
    ∃ fs, reconcileHits linelist value hs = some fs ∧
      (∀ h ∈ hs, ∀ p dl, linelist.find? (fun q => q.2 == h.context_text) = some p →
        value.find? (fun d => p.1 == d.num) = some dl →
        (⟨p.1, pyStrip dl.text, .ofStr h.name⟩ : Finding) ∈ fs) ∧
      (∀ f ∈ fs, ∃ h ∈ hs, ∃ p dl,
        linelist.find? (fun q => q.2 == h.context_text) = some p ∧
        value.find? (fun d => p.1 == d.num) = some dl ∧
        f = ⟨p.1, pyStrip dl.text, .ofStr h.name⟩) := by
  induction hs with
  | nil =>
    refine ⟨[], rfl, ?_, ?_⟩
    · intro h hh
      cases hh
    · intro f hf
      cases hf
  | cons h hs ih =>
    obtain ⟨p, hp, dl, hdl⟩ := hall h (by simp)
    obtain ⟨fs, hfs, hmem, hsrc⟩ := ih fun h2 hh2 => hall h2 (by simp [hh2])
    refine ⟨⟨p.1, pyStrip dl.text, .ofStr h.name⟩ :: fs, ?_, ?_, ?_⟩
    · simp only [reconcileHits, hp, hdl, hfs]
      rfl
    · intro h2 hh2 p2 dl2 hp2 hdl2
      rcases List.mem_cons.mp hh2 with he | hh3
      · subst he
        rw [hp] at hp2
        injection hp2 with hpe
        subst hpe
        rw [hdl] at hdl2
        injection hdl2 with hde
        subst hde
        exact List.mem_cons_self _ _
      · exact List.mem_cons_of_mem _ (hmem h2 hh3 p2 dl2 hp2 hdl2)
    · intro f hf
      rcases List.mem_cons.mp hf with he | hf2
      · exact ⟨h, by simp, p, dl, hp, hdl, he⟩
      · obtain ⟨h2, hh2, p2, dl2, h1, h2b, h3⟩ := hsrc f hf2
        exact ⟨h2, by simp [hh2], p2, dl2, h1, h2b, h3⟩

/-- Every pair in the C filter output carries the number of some raw diff
line. -/
theorem cFilter_entry {cC : String → Bool} {rC : String → String} {value : List DiffLine}
    {p : Nat × String} (hp : p ∈ cFilterList cC rC value) :
    ∃ dl ∈ value, dl.num = p.1 := by
  obtain ⟨dl, hdl, heq⟩ := List.mem_map.mp hp
  exact ⟨dl, (List.mem_filter.mp hdl).1, by rw [← heq]⟩

/-- The raw-side lookup of the reconciliation succeeds whenever the number
belongs to some raw line. -/
theorem value_find_of_mem {value : List DiffLine} {n : Nat}
    (hex : ∃ dl ∈ value, dl.num = n) :
    ∃ dl, value.find? (fun d => n == d.num) = some dl := by
  obtain ⟨dl, hdl, he⟩ := hex
  refine Option.isSome_iff_exists.mp ?_
  rw [List.find?_isSome]
  exact ⟨dl, hdl, by simp [he]⟩

/-- If every surviving hit's text occurs in the filtered list, both lookups
of the reconciliation succeed for every surviving hit. -/
theorem flawfinder_reconcilable (cC : String → Bool) (rC : String → String)
    (value : List DiffLine) (hs : List Hit)
    (hallc : ∀ h ∈ hs, ∃ p ∈ cFilterList cC rC value, p.2 = h.context_text) :
    ∀ h ∈ hs, ∃ p, (cFilterList cC rC value).find? (fun q => q.2 == h.context_text) = some p ∧
      ∃ dl, value.find? (fun d => p.1 == d.num) = some dl := by
  intro h hh
  obtain ⟨p, hp, he⟩ := hallc h hh
  have hsome : ((cFilterList cC rC value).find? (fun q => q.2 == h.context_text)).isSome := by
    rw [List.find?_isSome]
    exact ⟨p, hp, by simp [he]⟩
  obtain ⟨p0, hp0⟩ := Option.isSome_iff_exists.mp hsome
  obtain ⟨dl, hdl⟩ := value_find_of_mem (cFilter_entry (List.mem_of_find?_eq_some hp0))
  exact ⟨p0, hp0, dl, hdl⟩

/-- C2 counterexample: the emitted line text is the stripped raw line, not
the original untrimmed one — on a raw added line with leading whitespace the
finding's `line` differs from the raw text. -/
theorem flawfinder_line_is_stripped :
    run_flawfinder strcpyScanner cCommentsSpec removeCommentSpec
        ⟨[⟨5, "  strcpy(a, b);"⟩], []⟩ =
      some ⟨[⟨5, "strcpy(a, b);", .ofStr "strcpy"⟩], []⟩ ∧
    "strcpy(a, b);" ≠ "  strcpy(a, b);" := by
  decide

/-- C2 (amended).  A severity>0 non-comment hit whose matched text occurs on
exactly one filtered line is emitted with that line's original diff line
number and the stripped (not untrimmed) raw line text; and every emitted
finding stems from a severity>0 non-comment hit, so severity-0 hits and
comment-text hits are excluded. -/
theorem flawfinder_reconciliation (scanner : List String → List Hit) (cC : String → Bool)
    (rC : String → String) (value : List DiffLine) (h0 : Hit) (n : Nat) (dl : DiffLine)
    (pre suf : List (Nat × String))
    (hsplit : cFilterList cC rC value = pre ++ (n, h0.context_text) :: suf)
    (huniq : ∀ p ∈ pre ++ suf, p.2 ≠ h0.context_text)
    (hmem : h0 ∈ (scanner ((cFilterList cC rC value).map Prod.snd)).filter
      (fun h => decide (0 < h.level) && !cC h.context_text))
    (hnd : (value.map DiffLine.num).Nodup)
    (hdl : dl ∈ value) (hdln : dl.num = n)
    (hall : ∀ h ∈ (scanner ((cFilterList cC rC value).map Prod.snd)).filter
      (fun h => decide (0 < h.level) && !cC h.context_text),
      ∃ p ∈ cFilterList cC rC value, p.2 = h.context_text) :
    ∃ fs, flawfinderSide scanner cC rC value = some fs ∧
      (⟨n, pyStrip dl.text, .ofStr h0.name⟩ : Finding) ∈ fs ∧
      ∀ f ∈ fs, ∃ h ∈ scanner ((cFilterList cC rC value).map Prod.snd),
        0 < h.level ∧ cC h.context_text = false ∧ f.vulnerability = .ofStr h.name := by
  have hrec := flawfinder_reconcilable cC rC value _ hall
  obtain ⟨fs, hfs, hmem2, hsrc⟩ := reconcileHits_spec _ value _ hrec
  refine ⟨fs, by simpa only [flawfinderSide] using hfs, ?_, ?_⟩
  · have hfind : (cFilterList cC rC value).find? (fun q => q.2 == h0.context_text) =
        some (n, h0.context_text) := by
      rw [hsplit]
      apply find?_first_of_split
      · intro x hx
        simp [huniq x (List.mem_append.mpr (Or.inl hx))]
      · simp
    have hvfind : value.find? (fun d => (n, h0.context_text).1 == d.num) = some dl := by
      apply find?_of_unique
      · exact hdl
      · simp [hdln]
      · intro b hb hpb
        have hbe : n = b.num := by simpa using hpb
        exact diffNum_inj hnd hb hdl (by rw [← hbe, hdln])
    exact hmem2 h0 hmem _ dl hfind hvfind
  · intro f hf
    obtain ⟨h, hh, p, dl2, h1, h2, h3⟩ := hsrc f hf
    have hh2 := List.mem_filter.mp hh
    have hcond := hh2.2
    rw [Bool.and_eq_true] at hcond
    refine ⟨h, hh2.1, of_decide_eq_true hcond.1, ?_, by rw [h3]⟩
    cases hcc : cC h.context_text
    · rfl
    · rw [hcc] at hcond
      simp at hcond

/-- Witness for C2 (amended): the `strcpy` hit on the unique filtered line
reconciles to line 5 with the stripped raw text. -/
theorem flawfinder_reconciliation_witness :
    ∃ fs, flawfinderSide strcpyScanner cCommentsSpec removeCommentSpec
        [⟨5, "  strcpy(a, b);"⟩] = some fs ∧
      (⟨5, pyStrip "  strcpy(a, b);", .ofStr "strcpy"⟩ : Finding) ∈ fs ∧
      ∀ f ∈ fs, ∃ h ∈ strcpyScanner ((cFilterList cCommentsSpec removeCommentSpec
          [⟨5, "  strcpy(a, b);"⟩]).map Prod.snd),
        0 < h.level ∧ cCommentsSpec h.context_text = false ∧
          f.vulnerability = .ofStr h.name :=
  flawfinder_reconciliation strcpyScanner cCommentsSpec removeCommentSpec
    [⟨5, "  strcpy(a, b);"⟩] ⟨"strcpy", 4, "strcpy(a, b);"⟩ 5 ⟨5, "  strcpy(a, b);"⟩ [] []
    (by decide) (by decide) (by decide) (by decide) (by decide) (by decide) (by decide)

/-- C9.  When the filtered line sequence contains two or more lines with
text equal to a surviving hit's matched text, reconciliation binds the hit
to the first such line's number, and no error is raised (the side still
produces its findings). -/
theorem flawfinder_first_occurrence (scanner : List String → List Hit) (cC : String → Bool)
    (rC : String → String) (value : List DiffLine) (h0 : Hit) (n1 : Nat)
    (pre suf : List (Nat × String))
    (hsplit : cFilterList cC rC value = pre ++ (n1, h0.context_text) :: suf)
    (hpre : ∀ p ∈ pre, p.2 ≠ h0.context_text)
    (hdup : ∃ q ∈ suf, q.2 = h0.context_text)
    (hmem : h0 ∈ (scanner ((cFilterList cC rC value).map Prod.snd)).filter
      (fun h => decide (0 < h.level) && !cC h.context_text))
    (hall : ∀ h ∈ (scanner ((cFilterList cC rC value).map Prod.snd)).filter
      (fun h => decide (0 < h.level) && !cC h.context_text),
      ∃ p ∈ cFilterList cC rC value, p.2 = h.context_text) :
    ∃ fs, flawfinderSide scanner cC rC value = some fs ∧
      ∃ s, (⟨n1, s, .ofStr h0.name⟩ : Finding) ∈ fs := by
  have hrec := flawfinder_reconcilable cC rC value _ hall
  obtain ⟨fs, hfs, hmem2, _⟩ := reconcileHits_spec _ value _ hrec
  have hfind : (cFilterList cC rC value).find? (fun q => q.2 == h0.context_text) =
      some (n1, h0.context_text) := by
    rw [hsplit]
    apply find?_first_of_split
    · intro x hx
      simp [hpre x hx]
    · simp
  obtain ⟨p, hp, dl, hdl⟩ := hrec h0 hmem
  rw [hfind] at hp
  injection hp with hpe
  subst hpe
  exact ⟨fs, by simpa only [flawfinderSide] using hfs, pyStrip dl.text,
    hmem2 h0 hmem _ dl hfind hdl⟩

/-- Witness for C9: two identical filtered lines (numbers 1 and 2); the hit
binds to line 1 and the side succeeds. -/
theorem flawfinder_first_occurrence_witness :
    ∃ fs, flawfinderSide strcpyScanner cCommentsSpec removeCommentSpec
        [⟨1, "strcpy(a, b);"⟩, ⟨2, "strcpy(a, b);"⟩] = some fs ∧
      ∃ s, (⟨1, s, .ofStr "strcpy"⟩ : Finding) ∈ fs :=
  flawfinder_first_occurrence strcpyScanner cCommentsSpec removeCommentSpec
    [⟨1, "strcpy(a, b);"⟩, ⟨2, "strcpy(a, b);"⟩] ⟨"strcpy", 4, "strcpy(a, b);"⟩ 1
    [] [(2, "strcpy(a, b);")]
    (by decide) (by decide) (by decide) (by decide) (by decide)

/-- Every finding produced by the generic per-side scan carries a list of
rule names. -/
theorem processSide_shape {rs : List (String × List String)} {lines : List (Nat × String)}
    {f : Finding} (hf : f ∈ processSide rs lines) :
    VulnValue.isList f.vulnerability = true := by
  induction lines with
  | nil =>
    simp only [processSide] at hf
    cases hf
  | cons p ps ih =>
    simp only [processSide] at hf
    split at hf
    · exact ih hf
    · rcases List.mem_cons.mp hf with he | hf2
      · subst he
        rfl
      · exact ih hf2

/-- Every finding accumulated by the language loop of `process_diff`
carries a list of rule names, provided the accumulator does. -/
theorem processDiffAux_shape {langs : List LanguageProfile} {ext : String} {d : Diff}
    {po : PartialOutput}
    (hpo : ∀ g, g ∈ po.added ∨ g ∈ po.deleted → VulnValue.isList g.vulnerability = true)
    {f : Finding}
    (hf : f ∈ (processDiffAux langs ext d po).added ∨
      f ∈ (processDiffAux langs ext d po).deleted) :
    VulnValue.isList f.vulnerability = true := by
  induction langs generalizing d po with
  | nil =>
    simp only [processDiffAux] at hf
    exact hpo f hf
  | cons l ls ih =>
    simp only [processDiffAux] at hf
    split at hf
    · refine ih ?_ hf
      intro g hg
      cases hg with
      | inl hg =>
        rcases List.mem_append.mp hg with h1 | h2
        · exact hpo g (Or.inl h1)
        · exact processSide_shape h2
      | inr hg =>
        rcases List.mem_append.mp hg with h1 | h2
        · exact hpo g (Or.inr h1)
        · exact processSide_shape h2
    · exact ih hpo hf

/-- Every finding produced by the reconciliation loop carries a single
rule-name string, not a list. -/
theorem reconcileHits_shape {linelist : List (Nat × String)} {value : List DiffLine}
    {hs : List Hit} {fs : List Finding} (hr : reconcileHits linelist value hs = some fs)
    {f : Finding} (hf : f ∈ fs) : VulnValue.isList f.vulnerability = false := by
  induction hs generalizing fs with
  | nil =>
    simp only [reconcileHits] at hr
    injection hr with he
    subst he
    cases hf
  | cons h hs ih =>
    simp only [reconcileHits] at hr
    split at hr
    · exact Option.noConfusion hr
    · split at hr
      · exact Option.noConfusion hr
      · obtain ⟨fs2, hfs2, he⟩ := Option.map_eq_some'.mp hr
        subst he
        rcases List.mem_cons.mp hf with he2 | hf2
        · subst he2
          rfl
        · exact ih hfs2 hf2

/-- C4 counterexample: a `run_flawfinder` finding's vulnerability field is
a bare string, not a list of strings. -/
theorem flawfinder_vulnerability_not_list :
    run_flawfinder strcpyScanner cCommentsSpec removeCommentSpec
        ⟨[⟨7, "strcpy(a, b);"⟩], []⟩ =
      some ⟨[⟨7, "strcpy(a, b);", .ofStr "strcpy"⟩], []⟩ ∧
    VulnValue.isList (VulnValue.ofStr "strcpy") = false := by
  decide

/-- C4 (amended).  Findings of the generic rule matcher carry a list of
matched rule names, but findings of the C/C++ adapter carry a single
rule-name string (on both sides, for both matchers). -/
theorem finding_vulnerability_shape (langs : List LanguageProfile) (d1 : Diff) (ext : String)
    (scanner : List String → List Hit) (cC : String → Bool) (rC : String → String)
    (d2 : Diff) (po : PartialOutput) (f g : Finding)
    (hf : f ∈ (process_diff langs d1 ext).added ∨ f ∈ (process_diff langs d1 ext).deleted)
    (hrun : run_flawfinder scanner cC rC d2 = some po)
    (hg : g ∈ po.added ∨ g ∈ po.deleted) :
    VulnValue.isList f.vulnerability = true ∧ VulnValue.isList g.vulnerability = false := by
  constructor
  · simp only [process_diff] at hf
    refine processDiffAux_shape ?_ hf
    intro x hx
    rcases hx with h | h
    · cases h
    · cases h
  · rcases ha : flawfinderSide scanner cC rC d2.added with _ | a <;>
      rcases hd : flawfinderSide scanner cC rC d2.deleted with _ | del <;>
      simp only [run_flawfinder, ha, hd] at hrun
    · exact Option.noConfusion hrun
    · exact Option.noConfusion hrun
    · exact Option.noConfusion hrun
    · injection hrun with he
      subst he
      simp only [flawfinderSide] at ha hd
      cases hg with
      | inl hg => exact reconcileHits_shape ha hg
      | inr hg => exact reconcileHits_shape hd hg

/-- Witness for C4 (amended): a generic `md5` finding carries the list
`["md5"]`; the `strcpy` adapter finding carries the bare string. -/
theorem finding_vulnerability_shape_witness :
    VulnValue.isList (VulnValue.ofList ["md5"]) = true ∧
    VulnValue.isList (VulnValue.ofStr "strcpy") = false :=
  finding_vulnerability_shape [sampleProfile] ⟨[⟨2, "use md5 here"⟩], []⟩ ".py"
    strcpyScanner cCommentsSpec removeCommentSpec ⟨[⟨7, "strcpy(a, b);"⟩], []⟩
    ⟨[⟨7, "strcpy(a, b);", .ofStr "strcpy"⟩], []⟩
    ⟨2, pyStrip "use md5 here", .ofList ["md5"]⟩ ⟨7, pyStrip "strcpy(a, b);", .ofStr "strcpy"⟩
    (by decide) (by decide) (by decide)

/-- The lookup misses exactly when no entry carries the key. -/
theorem lookupEntry_none_iff {out : Output} {h : String} :
    lookupEntry out h = none ↔ ∀ e, (h, e) ∉ out := by
  rw [lookupEntry, Option.map_eq_none', List.find?_eq_none]
  constructor
  · intro hf e he
    have := hf (h, e) he
    simp at this
  · intro hf p hp hbeq
    have hp1 : p.1 = h := by simpa using hbeq
    exact hf p.2 (by rw [← hp1]; exact hp)

/-- A hit lookup yields a member entry with the key. -/
theorem lookupEntry_isSome_mem {out : Output} {h : String}
    (hs : (lookupEntry out h).isSome = true) : ∃ e, (h, e) ∈ out := by
  rw [lookupEntry, Option.isSome_map', List.find?_isSome] at hs
  obtain ⟨p, hp, hbeq⟩ := hs
  have hp1 : p.1 = h := by simpa using hbeq
  exact ⟨p.2, by rw [← hp1]; exact hp⟩

/-- A member entry makes the lookup hit. -/
theorem mem_lookupEntry_isSome {out : Output} {h : String} {e : CommitEntry}
    (hm : (h, e) ∈ out) : (lookupEntry out h).isSome = true := by
  rw [lookupEntry, Option.isSome_map', List.find?_isSome]
  exact ⟨(h, e), hm, by simp⟩

/-- Appending a fresh entry makes its key found. -/
theorem lookupEntry_append_right {out : Output} {h : String} {e : CommitEntry}
    (hn : lookupEntry out h = none) : lookupEntry (out ++ [(h, e)]) h = some e := by
  rw [lookupEntry] at hn ⊢
  rw [Option.map_eq_none'] at hn
  rw [List.find?_append, hn]
  simp [List.find?_cons_of_pos]

/-- A classification pass over a commit already keyed in the output leaves
the output unchanged. -/
theorem classifyAux_of_some {c : Commit} {vl : List VulnRule} {out : Output}
    (hs : (lookupEntry out c.hash).isSome = true) : classifyAux c vl out = out := by
  induction vl with
  | nil => rfl
  | cons v vs ih =>
    simp only [classifyAux]
    cases hvs : v.search (process_commit_message c.msg) with
    | some g => simp only [hvs, hs, if_true]; exact ih
    | none => simp only [hvs]; exact ih

/-- A classification pass over an unkeyed commit whose normalized message
first matches rule `(n, g)` appends exactly that one entry. -/
theorem classifyAux_of_none_some {c : Commit} {vl : List VulnRule} {out : Output}
    (hn : lookupEntry out c.hash = none) {n g : String}
    (hfm : firstMatch vl (process_commit_message c.msg) = some (n, g)) :
    classifyAux c vl out = out ++ [(c.hash, ⟨c.msg, [(n, g)], []⟩)] := by
  induction vl generalizing out with
  | nil =>
    simp only [firstMatch] at hfm
    exact Option.noConfusion hfm
  | cons v vs ih =>
    simp only [classifyAux]
    cases hvs : v.search (process_commit_message c.msg) with
    | some g2 =>
      simp only [firstMatch, hvs] at hfm
      injection hfm with hpair
      injection hpair with h1 h2
      subst h1
      subst h2
      simp only [hvs, hn, Option.isSome_none, Bool.false_eq_true, if_false]
      exact classifyAux_of_some (by rw [lookupEntry_append_right hn]; rfl)
    | none =>
      simp only [firstMatch, hvs] at hfm
      simp only [hvs]
      exact ih hn hfm

/-- A classification pass over an unkeyed commit with no matching rule
leaves the output unchanged. -/
theorem classifyAux_of_none_none {c : Commit} {vl : List VulnRule} {out : Output}
    (hn : lookupEntry out c.hash = none)
    (hfm : firstMatch vl (process_commit_message c.msg) = none) :
    classifyAux c vl out = out := by
  induction vl generalizing out with
  | nil => rfl
  | cons v vs ih =>
    simp only [classifyAux]
    cases hvs : v.search (process_commit_message c.msg) with
    | some g2 =>
      simp only [firstMatch, hvs] at hfm
      exact Option.noConfusion hfm
    | none =>
      simp only [firstMatch, hvs] at hfm
      simp only [hvs]
      exact ih hn hfm

/-- Classification never removes entries. -/
theorem classifyAux_mem_mono {c : Commit} {vl : List VulnRule} {out : Output}
    {h : String} {e : CommitEntry} (hm : (h, e) ∈ out) :
    (h, e) ∈ classifyAux c vl out := by
  induction vl generalizing out with
  | nil => exact hm
  | cons v vs ih =>
    simp only [classifyAux]
    cases hvs : v.search (process_commit_message c.msg) with
    | some g =>
      simp only [hvs]
      split
      · exact ih hm
      · exact ih (List.mem_append.mpr (Or.inl hm))
    | none =>
      simp only [hvs]
      exact ih hm

/-- The catalog misses exactly when every rule misses. -/
theorem firstMatch_none_iff {vl : List VulnRule} {m : String} :
    firstMatch vl m = none ↔ ∀ r ∈ vl, r.search m = none := by
  induction vl with
  | nil => simp [firstMatch]
  | cons v vs ih =>
    cases hvs : v.search m with
    | some g =>
      simp only [firstMatch, hvs]
      constructor
      · intro hc
        exact Option.noConfusion hc
      · intro hall
        have := hall v (by simp)
        rw [hvs] at this
        exact Option.noConfusion this
    | none =>
      simp only [firstMatch, hvs]
      rw [ih]
      constructor
      · intro hall r hr
        rcases List.mem_cons.mp hr with he | hr2
        · subst he
          exact hvs
        · exact hall r hr2
      · intro hall r hr
        exact hall r (List.mem_cons_of_mem _ hr)

/-- Some rule matching makes the catalog hit. -/
theorem firstMatch_isSome_of_match {vl : List VulnRule} {m : String}
    (hex : ∃ r ∈ vl, (r.search m).isSome = true) :
    ∃ n g, firstMatch vl m = some (n, g) := by
  cases hfm : firstMatch vl m with
  | some p =>
    obtain ⟨a, b⟩ := p
    exact ⟨a, b, rfl⟩
  | none =>
    obtain ⟨r, hr, hs⟩ := hex
    rw [firstMatch_none_iff] at hfm
    rw [hfm r hr] at hs
    exact Bool.noConfusion hs

/-- A catalog hit names a member rule together with its matched text. -/
theorem firstMatch_mem {vl : List VulnRule} {m : String} {n g : String}
    (hfm : firstMatch vl m = some (n, g)) :
    ∃ r ∈ vl, r.name = n ∧ r.search m = some g := by
  induction vl with
  | nil =>
    simp only [firstMatch] at hfm
    exact Option.noConfusion hfm
  | cons v vs ih =>
    simp only [firstMatch] at hfm
    cases hvs : v.search m with
    | some g2 =>
      rw [hvs] at hfm
      injection hfm with hpair
      injection hpair with h1 h2
      exact ⟨v, by simp, h1, by rw [hvs, h2]⟩
    | none =>
      rw [hvs] at hfm
      obtain ⟨r, hr, h1, h2⟩ := ih hfm
      exact ⟨r, List.mem_cons_of_mem _ hr, h1, h2⟩

/-- Appending a file entry changes no key, message or vulnerability list. -/
theorem updateEntry_proj (out : Output) (h : String) (fe : FileEntry) :
    (updateEntry out h fe).map (fun p => (p.1, p.2.message, p.2.vulnerabilities)) =
      out.map fun p => (p.1, p.2.message, p.2.vulnerabilities) := by
  rw [updateEntry, List.map_map]
  apply List.map_congr_left
  intro p _
  by_cases hb : p.1 = h <;> simp [hb]

/-- The modification loop changes no key, message or vulnerability list. -/
theorem modFold_proj {P : Params} {h : String} {ms : List Modification} {out out2 : Output}
    (hm : modFold P h out ms = some out2) :
    out2.map (fun p => (p.1, p.2.message, p.2.vulnerabilities)) =
      out.map fun p => (p.1, p.2.message, p.2.vulnerabilities) := by
  induction ms generalizing out with
  | nil =>
    simp only [modFold] at hm
    injection hm with he
    subst he
    rfl
  | cons m ms ih =>
    simp only [modFold] at hm
    split at hm
    · exact Option.noConfusion hm
    · rw [ih hm]
      split
      · rfl
      · exact updateEntry_proj out h _

/-- Transfer of an entry across outputs with equal key/message/vulnerability
projections. -/
theorem proj_mem_of_proj_eq {outA outB : Output}
    (hp : outA.map (fun p => (p.1, p.2.message, p.2.vulnerabilities)) =
      outB.map fun p => (p.1, p.2.message, p.2.vulnerabilities))
    {h : String} {e : CommitEntry} (hm : (h, e) ∈ outA) :
    ∃ e2, (h, e2) ∈ outB ∧ e2.message = e.message ∧ e2.vulnerabilities = e.vulnerabilities := by
  have h1 : (h, e.message, e.vulnerabilities) ∈
      outA.map fun p => (p.1, p.2.message, p.2.vulnerabilities) :=
    List.mem_map.mpr ⟨(h, e), hm, rfl⟩
  rw [hp] at h1
  obtain ⟨q, hq, he⟩ := List.mem_map.mp h1
  injection he with he1 he2
  injection he2 with he2a he2b
  exact ⟨q.2, by rw [← he1]; exact hq, he2a, he2b⟩

/-- Unfolding one commit of the traversal. -/
theorem searchCommits_cons {P : Params} {c : Commit} {cs : List Commit} {out0 out : Output}
    (hrun : searchCommits P out0 (c :: cs) = some out) :
    ∃ out2, (if (lookupEntry (classifyAux c P.vulnList out0) c.hash).isSome then
        modFold P c.hash (classifyAux c P.vulnList out0) c.modifications
      else some (classifyAux c P.vulnList out0)) = some out2 ∧
      searchCommits P out2 cs = some out := by
  simp only [searchCommits] at hrun
  split at hrun
  · exact Option.noConfusion hrun
  · rename_i out2 heq
    exact ⟨out2, heq, hrun⟩

/-- One commit step keeps every existing entry, with its message and
vulnerability list intact. -/
theorem commitStep_keep {P : Params} {c : Commit} {out0 out2 : Output}
    (hstep : (if (lookupEntry (classifyAux c P.vulnList out0) c.hash).isSome then
        modFold P c.hash (classifyAux c P.vulnList out0) c.modifications
      else some (classifyAux c P.vulnList out0)) = some out2)
    {h : String} {e0 : CommitEntry} (hm : (h, e0) ∈ out0) :
    ∃ e, (h, e) ∈ out2 ∧ e.message = e0.message ∧ e.vulnerabilities = e0.vulnerabilities := by
  have hm1 : (h, e0) ∈ classifyAux c P.vulnList out0 := classifyAux_mem_mono hm
  split at hstep
  · exact proj_mem_of_proj_eq (modFold_proj hstep).symm hm1
  · injection hstep with he
    rw [← he]
    exact ⟨e0, hm1, rfl, rfl⟩

/-- Provenance of entries across one classification pass: an entry of the
result was already present, or is the fresh entry of this commit, carrying
the raw message and the first catalog match. -/
theorem classifyAux_mem_src {c : Commit} {vl : List VulnRule} {out : Output}
    {h : String} {e : CommitEntry} (hm : (h, e) ∈ classifyAux c vl out) :
    (h, e) ∈ out ∨ (h = c.hash ∧ e.message = c.msg ∧ ∃ n g,
      firstMatch vl (process_commit_message c.msg) = some (n, g) ∧
      e.vulnerabilities = [(n, g)]) := by
  by_cases hls : (lookupEntry out c.hash).isSome = true
  · rw [classifyAux_of_some hls] at hm
    exact Or.inl hm
  · have hn : lookupEntry out c.hash = none := by
      cases hle : lookupEntry out c.hash
      · rfl
      · rw [hle] at hls
        simp at hls
    cases hfm : firstMatch vl (process_commit_message c.msg) with
    | none =>
      rw [classifyAux_of_none_none hn hfm] at hm
      exact Or.inl hm
    | some p =>
      obtain ⟨n, g⟩ := p
      rw [classifyAux_of_none_some hn hfm] at hm
      rcases List.mem_append.mp hm with h1 | h2
      · exact Or.inl h1
      · have he := List.mem_singleton.mp h2
        injection he with he1 he2
        subst he1
        subst he2
        exact Or.inr ⟨rfl, rfl, n, g, rfl, rfl⟩

/-- The traversal keeps every entry of the accumulator, with message and
vulnerability list intact. -/
theorem searchCommits_keep {P : Params} {cs : List Commit} :
    ∀ {out0 out : Output}, searchCommits P out0 cs = some out →
    ∀ {h : String} {e0 : CommitEntry}, (h, e0) ∈ out0 →
    ∃ e, (h, e) ∈ out ∧ e.message = e0.message ∧ e.vulnerabilities = e0.vulnerabilities := by
  induction cs with
  | nil =>
    intro out0 out hrun h e0 hm
    simp only [searchCommits] at hrun
    injection hrun with he
    subst he
    exact ⟨e0, hm, rfl, rfl⟩
  | cons c cs ih =>
    intro out0 out hrun h e0 hm
    obtain ⟨out2, hstep, hrest⟩ := searchCommits_cons hrun
    obtain ⟨e1, hm1, h1m, h1v⟩ := commitStep_keep hstep hm
    obtain ⟨e, hme, hem, hev⟩ := ih hrest hm1
    exact ⟨e, hme, hem.trans h1m, hev.trans h1v⟩

/-- Provenance of entries across one commit step. -/
theorem commitStep_src {P : Params} {c : Commit} {out0 out2 : Output}
    (hstep : (if (lookupEntry (classifyAux c P.vulnList out0) c.hash).isSome then
        modFold P c.hash (classifyAux c P.vulnList out0) c.modifications
      else some (classifyAux c P.vulnList out0)) = some out2)
    {h : String} {e : CommitEntry} (hm : (h, e) ∈ out2) :
    (∃ e0, (h, e0) ∈ out0 ∧ e0.message = e.message ∧ e0.vulnerabilities = e.vulnerabilities) ∨
    (h = c.hash ∧ e.message = c.msg ∧ ∃ n g,
      firstMatch P.vulnList (process_commit_message c.msg) = some (n, g) ∧
      e.vulnerabilities = [(n, g)]) := by
  have hback : ∃ e1, (h, e1) ∈ classifyAux c P.vulnList out0 ∧
      e1.message = e.message ∧ e1.vulnerabilities = e.vulnerabilities := by
    split at hstep
    · exact proj_mem_of_proj_eq (modFold_proj hstep) hm
    · injection hstep with he
      rw [he]
      exact ⟨e, hm, rfl, rfl⟩
  obtain ⟨e1, hm1, h1m, h1v⟩ := hback
  rcases classifyAux_mem_src hm1 with h1 | ⟨hh, hmsg, n, g, hfm, hv⟩
  · exact Or.inl ⟨e1, h1, h1m, h1v⟩
  · refine Or.inr ⟨hh, ?_, n, g, hfm, ?_⟩
    · rw [← h1m]
      exact hmsg
    · rw [← h1v]
      exact hv

/-- Provenance of entries across the whole traversal. -/
theorem searchCommits_src {P : Params} {cs : List Commit} :
    ∀ {out0 out : Output}, searchCommits P out0 cs = some out →
    ∀ {h : String} {e : CommitEntry}, (h, e) ∈ out →
    (∃ e0, (h, e0) ∈ out0 ∧ e0.message = e.message ∧ e0.vulnerabilities = e.vulnerabilities) ∨
    (∃ c ∈ cs, h = c.hash ∧ e.message = c.msg ∧ ∃ n g,
      firstMatch P.vulnList (process_commit_message c.msg) = some (n, g) ∧
      e.vulnerabilities = [(n, g)]) := by
  induction cs with
  | nil =>
    intro out0 out hrun h e hm
    simp only [searchCommits] at hrun
    injection hrun with he
    subst he
    exact Or.inl ⟨e, hm, rfl, rfl⟩
  | cons c cs ih =>
    intro out0 out hrun h e hm
    obtain ⟨out2, hstep, hrest⟩ := searchCommits_cons hrun
    rcases ih hrest hm with ⟨e1, hm1, h1m, h1v⟩ | ⟨c2, hc2, rest⟩
    · rcases commitStep_src hstep hm1 with ⟨e0, hm0, h0m, h0v⟩ | ⟨hh, hmsg, n, g, hfm, hv⟩
      · exact Or.inl ⟨e0, hm0, h0m.trans h1m, h0v.trans h1v⟩
      · refine Or.inr ⟨c, by simp, hh, ?_, n, g, hfm, ?_⟩
        · rw [← h1m]
          exact hmsg
        · rw [← h1v]
          exact hv
    · exact Or.inr ⟨c2, List.mem_cons_of_mem _ hc2, rest⟩

/-- C10.  Every entry of the final output belongs to a traversed commit
whose raw message it stores verbatim, while the catalog match that admitted
it was computed on the normalized message. -/
theorem search_repository_reports_raw_message (P : Params) (commits : List Commit)
    (out : Output) (h : String) (e : CommitEntry)
    (hrun : search_repository P commits = some out) (hm : (h, e) ∈ out) :
    ∃ c ∈ commits, c.hash = h ∧ e.message = c.msg ∧
      ∃ r ∈ P.vulnList, (r.search (process_commit_message c.msg)).isSome = true := by
  rcases searchCommits_src hrun hm with ⟨e0, hm0, _, _⟩ | ⟨c, hc, hh, hmsg, n, g, hfm, _⟩
  · cases hm0
  · obtain ⟨r, hr, _, hsr⟩ := firstMatch_mem hfm
    exact ⟨c, hc, hh.symm, hmsg, r, hr, by rw [hsr]; rfl⟩

/-- Witness for C10: the stored message is the raw one including the
trailer, although classification ran on the trailer-stripped message. -/
theorem search_repository_reports_raw_message_witness :
    ∃ c ∈ [(⟨"h3", "Fix overflow\nSigned-off-by: X", []⟩ : Commit)], c.hash = "h3" ∧
      (⟨"Fix overflow\nSigned-off-by: X", [("Overflow", "overflow")], []⟩ :
        CommitEntry).message = c.msg ∧
      ∃ r ∈ sampleParams.vulnList,
        (r.search (process_commit_message c.msg)).isSome = true :=
  search_repository_reports_raw_message sampleParams
    [⟨"h3", "Fix overflow\nSigned-off-by: X", []⟩]
    [("h3", ⟨"Fix overflow\nSigned-off-by: X", [("Overflow", "overflow")], []⟩)]
    "h3" ⟨"Fix overflow\nSigned-off-by: X", [("Overflow", "overflow")], []⟩
    (by decide) (by decide)

/-- C3 counterexample: a classified commit with no modifications stays in
the output with an empty `files_changed` list — the drop of such commits is
commented out in the source, so the claimed invariant fails. -/
theorem classified_commit_kept_without_findings :
    search_repository sampleParams [⟨"h2", "fix overflow", []⟩] =
      some [("h2", ⟨"fix overflow", [("Overflow", "overflow")], []⟩)] ∧
    (⟨"fix overflow", [("Overflow", "overflow")], []⟩ : CommitEntry).files_changed = [] := by
  decide

/-- C3 (amended).  A classified commit (one whose normalized message some
catalog rule matches) is never dropped: its hash is keyed in the final
output even when its `files_changed` list is empty. -/
theorem search_repository_keeps_classified (P : Params) (commits : List Commit)
    (out : Output) (c : Commit)
    (hrun : search_repository P commits = some out) (hc : c ∈ commits)
    (hm : ∃ r ∈ P.vulnList, (r.search (process_commit_message c.msg)).isSome = true) :
    ∃ e, (c.hash, e) ∈ out := by
  have haux : ∀ (cs : List Commit) (out0 outF : Output), searchCommits P out0 cs = some outF →
      c ∈ cs → ∃ e, (c.hash, e) ∈ outF := by
    intro cs
    induction cs with
    | nil =>
      intro out0 outF _ hcc
      cases hcc
    | cons c2 cs ih =>
      intro out0 outF hrun2 hcc
      obtain ⟨out2, hstep, hrest⟩ := searchCommits_cons hrun2
      rcases List.mem_cons.mp hcc with he | hc2
      · subst he
        have hkey1 : ∃ e1, (c.hash, e1) ∈ classifyAux c P.vulnList out0 := by
          by_cases hls : (lookupEntry out0 c.hash).isSome = true
          · obtain ⟨e0, he0⟩ := lookupEntry_isSome_mem hls
            exact ⟨e0, classifyAux_mem_mono he0⟩
          · have hn : lookupEntry out0 c.hash = none := by
              cases hle : lookupEntry out0 c.hash
              · rfl
              · rw [hle] at hls
                simp at hls
            obtain ⟨n, g, hfm⟩ := firstMatch_isSome_of_match hm
            rw [classifyAux_of_none_some hn hfm]
            exact ⟨⟨c.msg, [(n, g)], []⟩, List.mem_append.mpr (Or.inr (by simp))⟩
        obtain ⟨e1, he1⟩ := hkey1
        have hkey2 : ∃ e2, (c.hash, e2) ∈ out2 := by
          split at hstep
          · obtain ⟨e2, he2, _, _⟩ := proj_mem_of_proj_eq (modFold_proj hstep).symm he1
            exact ⟨e2, he2⟩
          · injection hstep with he
            rw [← he]
            exact ⟨e1, he1⟩
        obtain ⟨e2, he2⟩ := hkey2
        obtain ⟨e, hme, _, _⟩ := searchCommits_keep hrest he2
        exact ⟨e, hme⟩
      · exact ih out2 outF hrest hc2
  exact haux commits [] out hrun hc

/-- Witness for C3 (amended): the classified commit `h2`, which produced no
file findings, is keyed in the output. -/
theorem search_repository_keeps_classified_witness :
    ∃ e, ("h2", e) ∈
      [("h2", (⟨"fix overflow", [("Overflow", "overflow")], []⟩ : CommitEntry))] :=
  search_repository_keeps_classified sampleParams [⟨"h2", "fix overflow", []⟩]
    [("h2", ⟨"fix overflow", [("Overflow", "overflow")], []⟩)] ⟨"h2", "fix overflow", []⟩
    (by decide) (by decide) (by decide)
